import Mathlib

/-!
# The bundler configuration of pdfpea (`vite.config.js`)

The repository's only source file is a module whose default export is one
object literal passed to `defineConfig`.  The development below embeds that
module: its import declarations, the object literal as a small expression
tree, and an evaluator that turns the tree into a value once the module's
free names (`__dirname`, the imported `resolve`) are supplied.

The functions the module imports are not part of the repository.  The
evaluator therefore takes `resolve` as a parameter; a model of the POSIX
flavour of Node's `path.resolve` is given separately and is used only where a
statement speaks about what the resolved paths look like.
-/

namespace ViteConfig

/-! ## Expressions and values -/

/-- Expressions occurring in `vite.config.js`. -/
inductive Expr where
  | str (s : String)
  | num (n : Nat)
  | bool (b : Bool)
  | ident (name : String)
  | call (fn : String) (args : List Expr)
  | arr (items : List Expr)
  | obj (fields : List (String × Expr))

/-- Values the expressions evaluate to.  `external m x args` is the result of
calling export `x` of module `m`, for a module whose code is not modelled. -/
inductive Value where
  | str (s : String)
  | num (n : Nat)
  | bool (b : Bool)
  | external (module : String) (exportName : String) (args : List Value)
  | arr (items : List Value)
  | obj (fields : List (String × Value))
  | undefined

/-- One import binding: local name, module specifier, exported name
(`"default"` for a default import). -/
structure ImportBinding where
  localName : String
  module : String
  exportName : String

/-- The four import declarations at the top of `vite.config.js`. -/
def imports : List ImportBinding :=
  [ ⟨"defineConfig", "vite", "defineConfig"⟩,
    ⟨"vue", "@vitejs/plugin-vue", "default"⟩,
    ⟨"resolve", "path", "resolve"⟩,
    ⟨"tailwindcss", "@tailwindcss/vite", "default"⟩ ]

/-- The binding a local name refers to. -/
def lookupImport (name : String) : Option ImportBinding :=
  imports.find? (fun b => b.localName == name)

/-- The free names of the module: the directory of the configuration file and
the function imported as `resolve` from `path`. -/
structure Env where
  dirname : String
  resolve : List String → String

/-- The string arguments of a call, when every argument is a string. -/
def stringArgs : List Value → Option (List String)
  | [] => some []
  | Value.str s :: vs => (stringArgs vs).map (fun ss => s :: ss)
  | _ :: _ => none

/-- Apply an imported function to evaluated arguments.  `defineConfig` returns
its argument; `resolve` is the environment's function; any other import is left
as an `external` call result. -/
def applyImport (env : Env) (b : ImportBinding) (args : List Value) : Value :=
  if b.module = "vite" ∧ b.exportName = "defineConfig" then
    args.headD Value.undefined
  else if b.module = "path" ∧ b.exportName = "resolve" then
    match stringArgs args with
    | some ss => Value.str (env.resolve ss)
    | none => Value.undefined
  else
    Value.external b.module b.exportName args

mutual
/-- Evaluate an expression. -/
def eval (env : Env) : Expr → Value
  | Expr.str s => Value.str s
  | Expr.num n => Value.num n
  | Expr.bool b => Value.bool b
  | Expr.ident n => if n = "__dirname" then Value.str env.dirname else Value.undefined
  | Expr.call fn args =>
      match lookupImport fn with
      | some b => applyImport env b (evalList env args)
      | none => Value.undefined
  | Expr.arr items => Value.arr (evalList env items)
  | Expr.obj fields => Value.obj (evalFields env fields)
/-- Evaluate the elements of an array literal or an argument list. -/
def evalList (env : Env) : List Expr → List Value
  | [] => []
  | e :: es => eval env e :: evalList env es
/-- Evaluate the properties of an object literal, in source order. -/
def evalFields (env : Env) : List (String × Expr) → List (String × Value)
  | [] => []
  | (k, e) :: fs => (k, eval env e) :: evalFields env fs
end

/-! ## The configuration -/

/-- The expression after `export default` in `vite.config.js`. -/
def viteConfig : Expr :=
  Expr.call "defineConfig" [
    Expr.obj [
      ("plugins", Expr.arr [
        Expr.call "vue" [],
        Expr.call "tailwindcss" []
      ]),
      ("root", Expr.str "."),
      ("publicDir", Expr.str "public"),
      ("build", Expr.obj [
        ("outDir", Expr.str "dist"),
        ("assetsDir", Expr.str "assets"),
        ("sourcemap", Expr.bool true),
        ("minify", Expr.str "terser"),
        ("rollupOptions", Expr.obj [
          ("input", Expr.obj [
            ("main", Expr.call "resolve" [Expr.ident "__dirname", Expr.str "index.html"])
          ]),
          ("output", Expr.obj [
            ("manualChunks", Expr.obj [
              ("vue", Expr.arr [Expr.str "vue"]),
              ("pdflib", Expr.arr [Expr.str "pdf-lib"]),
              ("pdfjs", Expr.arr [Expr.str "pdfjs-dist"]),
              ("moveable", Expr.arr [Expr.str "moveable"])
            ])
          ])
        ])
      ]),
      ("server", Expr.obj [
        ("port", Expr.num 8000),
        ("open", Expr.bool true),
        ("host", Expr.bool true)
      ]),
      ("resolve", Expr.obj [
        ("alias", Expr.obj [
          ("@", Expr.call "resolve" [Expr.ident "__dirname", Expr.str "src"]),
          ("@js", Expr.call "resolve" [Expr.ident "__dirname", Expr.str "src/js"]),
          ("@css", Expr.call "resolve" [Expr.ident "__dirname", Expr.str "src/css"])
        ])
      ]),
      ("optimizeDeps", Expr.obj [
        ("include", Expr.arr [Expr.str "vue", Expr.str "pdf-lib", Expr.str "pdfjs-dist",
          Expr.str "moveable"])
      ])
    ]
  ]

/-- The module's default export. -/
def exportedConfig (env : Env) : Value :=
  eval env viteConfig

/-! ## Reading a configuration value -/

/-- The last entry for a key in a property list (a later property of an object
literal overrides an earlier one of the same name). -/
def lookupField (k : String) : List (String × Value) → Option Value
  | [] => none
  | (key, v) :: fs =>
      match lookupField k fs with
      | some w => some w
      | none => if key = k then some v else none

/-- Property access `v.k`; `undefined` when `v` has no such property. -/
def Value.field (v : Value) (k : String) : Value :=
  match v with
  | Value.obj fs => (lookupField k fs).getD Value.undefined
  | _ => Value.undefined

/-- Nested property access `v.k₁.k₂...`. -/
def Value.path (v : Value) : List String → Value
  | [] => v
  | k :: ks => (v.field k).path ks

/-- The entries of an object, in order; empty for any other value. -/
def Value.entries : Value → List (String × Value)
  | Value.obj fs => fs
  | _ => []

/-- The property names of an object, in order. -/
def Value.keys (v : Value) : List String :=
  v.entries.map Prod.fst

/-- The elements of an array; empty for any other value. -/
def Value.items : Value → List Value
  | Value.arr vs => vs
  | _ => []

/-- The string a value is, if it is one. -/
def Value.asString : Value → Option String
  | Value.str s => some s
  | _ => none

/-- The strings among the elements of an array. -/
def Value.strings (v : Value) : List String :=
  v.items.filterMap Value.asString

/-- The entries of `build.rollupOptions.output.manualChunks`: chunk name and
the packages pinned to it. -/
def manualChunks (env : Env) : List (String × List String) :=
  (((exportedConfig env).path ["build", "rollupOptions", "output", "manualChunks"]).entries).map
    (fun kv => (kv.1, kv.2.strings))

/-- All packages named in the values of the manual chunks. -/
def manualChunkPackages (env : Env) : List String :=
  ((manualChunks env).map Prod.snd).flatten

/-- The list `optimizeDeps.include`. -/
def optimizeDepsInclude (env : Env) : List String :=
  ((exportedConfig env).path ["optimizeDeps", "include"]).strings

/-- A string-valued option of the configuration, read along a chain of keys. -/
def configString (env : Env) (keys : List String) : Option String :=
  ((exportedConfig env).path keys).asString

/-! ## The imported `resolve`

`path.resolve` belongs to Node's standard library, not to the repository.  The
definitions below follow its POSIX flavour: the arguments are taken from right
to left and joined with a slash until one of them is absolute, the working
directory is used when none is, and the joined string is normalised (empty and
`.` segments are dropped, a `..` segment removes the segment before it). -/

/-- The pieces of a path between its slashes. -/
def splitSlash : List Char → List (List Char)
  | [] => [[]]
  | c :: cs =>
      if c = '/' then [] :: splitSlash cs
      else
        match splitSlash cs with
        | [] => [[c]]
        | seg :: segs => (c :: seg) :: segs

/-- One round of the normalisation loop, run when a separator (or the end of
the path) closes the segment `seg`.  `stack` holds the segments kept so far,
the last one first. -/
def normalizeStep (allowAboveRoot : Bool) (stack : List (List Char)) (seg : List Char) :
    List (List Char) :=
  if seg = [] ∨ seg = ['.'] then stack
  else if seg = ['.', '.'] then
    match stack with
    | [] => if allowAboveRoot then [seg] else []
    | top :: rest =>
        if top = ['.', '.'] then (if allowAboveRoot then seg :: stack else stack)
        else rest
  else seg :: stack

/-- Segments joined with single slashes. -/
def joinSlash : List (List Char) → List Char
  | [] => []
  | [s] => s
  | s :: t :: ss => s ++ '/' :: joinSlash (t :: ss)

/-- The segments a path normalises to, the last one first. -/
def normalizeStack (allowAboveRoot : Bool) (path : List Char) : List (List Char) :=
  (splitSlash path).foldl (normalizeStep allowAboveRoot) []

/-- The normalised form of a path, without a leading or trailing slash. -/
def normalizeString (path : List Char) (allowAboveRoot : Bool) : List Char :=
  joinSlash (normalizeStack allowAboveRoot path).reverse

/-- The right-to-left loop of `resolve`: `paths` are the arguments in reverse
order followed by the working directory, `acc` the path built so far.  Returns
the joined path and whether an absolute argument was reached. -/
def resolveLoop : List (List Char) → List Char → List Char × Bool
  | [], acc => (acc, false)
  | p :: ps, acc =>
      if p = [] then resolveLoop ps acc
      else if p.head? = some '/' then (p ++ '/' :: acc, true)
      else resolveLoop ps (p ++ '/' :: acc)

/-- POSIX `path.resolve(...args)` with working directory `cwd`. -/
def posixResolve (cwd : String) (args : List String) : String :=
  let r := resolveLoop ((args.reverse ++ [cwd]).map String.data) []
  let normalized := normalizeString r.1 (!r.2)
  if r.2 then String.mk ('/' :: normalized)
  else if normalized.length > 0 then String.mk normalized
  else "."

/-- POSIX `path.isAbsolute`. -/
def isAbsolute (p : String) : Bool :=
  p.data.head? = some '/'

/-- The non-empty segments of a path. -/
def pathSegments (p : String) : List String :=
  ((splitSlash p.data).filter (fun s => !s.isEmpty)).map String.mk

/-- Whether a path has a `..` segment. -/
def hasDotDot (p : String) : Bool :=
  (pathSegments p).contains ".."

/-- Whether `target` lies strictly beneath the directory `base`: both are
absolute, `target` has no `..` segment, and the segments of `base` are a proper
initial part of the segments of `target`. -/
def isStrictlyBeneath (target base : String) : Bool :=
  isAbsolute target && isAbsolute base && !hasDotDot target &&
    (pathSegments base).isPrefixOf (pathSegments target) &&
    decide ((pathSegments base).length < (pathSegments target).length)

/-- The environment of a configuration file in directory `d`, loaded by a
process with working directory `cwd`, on a POSIX system. -/
def posixEnv (cwd d : String) : Env :=
  ⟨d, posixResolve cwd⟩

/-! ## Alias matching

The bundler turns the `resolve.alias` object into a list of entries, in key
order, takes the first entry whose key matches the import specifier and
rewrites the specifier with `specifier.replace(key, target)`.  With a string
as first argument `replace` acts on the first occurrence of the key, and it
reads the second argument as a template in which `$$`, `$&`, a dollar sign
followed by a backquote and a dollar sign followed by an apostrophe stand for a
dollar sign, the matched text, the text before the match and the text after
it. -/

/-- A string key matches a specifier that equals it or starts with it followed
by a slash. -/
def aliasMatches (key specifier : String) : Bool :=
  specifier == key || (key.data ++ ['/']).isPrefixOf specifier.data

/-- The entries of `resolve.alias`: key and target. -/
def aliasEntries (env : Env) : List (String × String) :=
  (((exportedConfig env).path ["resolve", "alias"]).entries).filterMap
    (fun kv => kv.2.asString.map (fun t => (kv.1, t)))

/-- The backquote character. -/
def backquote : Char :=
  Char.ofNat 96

/-- The apostrophe character. -/
def apostrophe : Char :=
  Char.ofNat 39

/-- The text `replace` inserts for a replacement template, given the matched
text and the text before and after the match.  A string pattern has no capture
groups, so a dollar sign followed by anything but `$`, `&`, a backquote or an
apostrophe stands for itself. -/
def getSubstitution (matched before after : List Char) : List Char → List Char
  | [] => []
  | [c] => [c]
  | c :: e :: rest =>
      if c = '$' then
        if e = '$' then '$' :: getSubstitution matched before after rest
        else if e = '&' then matched ++ getSubstitution matched before after rest
        else if e = backquote then before ++ getSubstitution matched before after rest
        else if e = apostrophe then after ++ getSubstitution matched before after rest
        else c :: getSubstitution matched before after (e :: rest)
      else c :: getSubstitution matched before after (e :: rest)

/-- The scan of `replace` for the first occurrence of `find`; `before` is the
part of the string already passed.  Without an occurrence the string is
returned as it is. -/
def replaceFrom (find repl : List Char) (before : List Char) : List Char → List Char
  | [] =>
      if find.isPrefixOf [] then before ++ getSubstitution find before [] repl
      else before
  | c :: cs =>
      if find.isPrefixOf (c :: cs) then
        before ++ getSubstitution find before ((c :: cs).drop find.length) repl ++
          (c :: cs).drop find.length
      else replaceFrom find repl (before ++ [c]) cs

/-- The string `s.replace(find, repl)` for strings `find` and `repl`. -/
def jsReplace (s find repl : String) : String :=
  String.mk (replaceFrom find.data repl.data [] s.data)

/-- The specifier after alias rewriting with the first matching entry; `none`
when no entry matches. -/
def rewriteImport (entries : List (String × String)) (specifier : String) : Option String :=
  (entries.find? (fun e => aliasMatches e.1 specifier)).map
    (fun e => jsReplace specifier e.1 e.2)

/-- Whether a replacement template contains `$&` or a dollar sign followed by
an apostrophe, read from left to right as `getSubstitution` reads it: the two
patterns whose expansion depends on the match and on the text after it. -/
def insertsMatchOrTail : List Char → Bool
  | [] => false
  | [_] => false
  | c :: e :: rest =>
      if c = '$' then
        if e = '$' then insertsMatchOrTail rest
        else if e = '&' then true
        else if e = backquote then insertsMatchOrTail rest
        else if e = apostrophe then true
        else insertsMatchOrTail (e :: rest)
      else insertsMatchOrTail (e :: rest)

/-! ## Auxiliary notions for the proofs -/

/-- A path is empty or ends with a slash. -/
def EndsSlash (p : List Char) : Prop :=
  p = [] ∨ ∃ q, p = q ++ ['/']

/-- Every entry of a stack is a non-empty segment without a slash. -/
def GoodStack (stack : List (List Char)) : Prop :=
  ∀ s ∈ stack, s ≠ [] ∧ '/' ∉ s

/-- No entry of a stack is `..`. -/
def NoDotDot (stack : List (List Char)) : Prop :=
  ∀ s ∈ stack, s ≠ ['.', '.']

/-- The string `posixResolve` returns for a normalised stack. -/
def renderResolved (absolute : Bool) (stack : List (List Char)) : String :=
  if absolute then String.mk ('/' :: joinSlash stack.reverse)
  else if (joinSlash stack.reverse).length > 0 then String.mk (joinSlash stack.reverse)
  else "."

/-- The stack of the directory an absolute path `d` denotes. -/
def baseStack (d : String) : List (List Char) :=
  normalizeStack false (d.data ++ ['/'])

/-! ## The path model on concrete inputs -/

/-- Values of `posixResolve` on a few inputs: plain joining, `.`/`..`/empty
segments and trailing slashes, an absolute later argument, the working
directory for relative arguments, `..` at the root, and the results without
any absolute part. -/
theorem posixResolve_examples :
    posixResolve "/w" ["/home/u/proj", "src/js"] = "/home/u/proj/src/js" ∧
    posixResolve "/w" ["/home/u/../proj/", "./src//js/"] = "/home/proj/src/js" ∧
    posixResolve "/w" ["/a", "/b", "c"] = "/b/c" ∧
    posixResolve "/w/x" ["", "src", ".."] = "/w/x" ∧
    posixResolve "/w" ["a/..", "../../..", "src"] = "/src" ∧
    posixResolve "/" ["/", "src"] = "/src" ∧
    posixResolve "/w/x" [] = "/w/x" ∧
    posixResolve "" ["..", "src"] = "../src" ∧
    posixResolve "" ["", ""] = "." := by
  decide

/-- Values of `aliasMatches`, `jsReplace` and `rewriteImport` on a few inputs. -/
theorem aliasMatches_examples :
    aliasMatches "@" "@" = true ∧
    aliasMatches "@" "@/App.vue" = true ∧
    aliasMatches "@" "@js/main.js" = false ∧
    aliasMatches "@js" "@js/main.js" = true ∧
    aliasMatches "@js" "@jsx/main.js" = false ∧
    aliasMatches "@" "@vitejs/plugin-vue" = false ∧
    jsReplace "a-b-c" "-" "+" = "a+b-c" ∧
    jsReplace "abc" "x" "y" = "abc" ∧
    jsReplace "a-b-c" "-" "[$&]" = "a[-]b-c" ∧
    jsReplace "a-b-c" "-" "$$1$2$" = "a$1$2$b-c" ∧
    jsReplace "ab-cd" "-" (String.mk ['<', '$', backquote, '|', '$', apostrophe, '>']) =
      "ab<ab|cd>cd" ∧
    rewriteImport [("@", "/p/src"), ("@js", "/p/src/js")] "@js/main.js" =
      some "/p/src/js/main.js" ∧
    rewriteImport [("@", "/p/src"), ("@js", "/p/src/js")] "@/js/main.js" =
      some "/p/src/js/main.js" ∧
    rewriteImport [("@", "/p/src"), ("@js", "/p/src/js")] "vue" = none := by
  decide

/-! ## Lemmas on the path model -/

theorem splitSlash_ne_nil (p : List Char) : splitSlash p ≠ [] := by
  cases p with
  | nil => simp [splitSlash]
  | cons c cs =>
      unfold splitSlash
      split
      · simp
      · split <;> simp

theorem splitSlash_append (a b : List Char) :
    splitSlash (a ++ '/' :: b) = splitSlash a ++ splitSlash b := by
  induction a with
  | nil => simp [splitSlash]
  | cons c a ih =>
      by_cases hc : c = '/'
      · simp [splitSlash, hc, ih]
      · have hne := splitSlash_ne_nil a
        cases hs : splitSlash a with
        | nil => exact absurd hs hne
        | cons seg segs => simp [splitSlash, hc, ih, hs]

theorem splitSlash_noSlash (p : List Char) (h : '/' ∉ p) : splitSlash p = [p] := by
  induction p with
  | nil => rfl
  | cons c cs ih =>
      have hc : c ≠ '/' := fun e => h (by simp [e])
      have hcs : '/' ∉ cs := fun e => h (by simp [e])
      simp [splitSlash, hc, ih hcs]

theorem noSlash_of_mem_splitSlash (p seg : List Char) (h : seg ∈ splitSlash p) : '/' ∉ seg := by
  induction p generalizing seg with
  | nil => simp [splitSlash] at h; simp [h]
  | cons c cs ih =>
      by_cases hc : c = '/'
      · simp [splitSlash, hc] at h
        rcases h with h | h
        · simp [h]
        · exact ih seg h
      · have hne := splitSlash_ne_nil cs
        cases hs : splitSlash cs with
        | nil => exact absurd hs hne
        | cons s ss =>
            simp [splitSlash, hc, hs] at h
            rcases h with h | h
            · subst h
              have := ih s (by simp [hs])
              intro hm
              rcases List.mem_cons.mp hm with e | e
              · exact hc e.symm
              · exact this e
            · exact ih seg (by simp [hs, h])

theorem joinSlash_snoc (segs : List (List Char)) (s : List Char) (h : segs ≠ []) :
    joinSlash (segs ++ [s]) = joinSlash segs ++ '/' :: s := by
  induction segs with
  | nil => exact absurd rfl h
  | cons a rest ih =>
      cases rest with
      | nil => simp [joinSlash]
      | cons b rest => 
          have := ih (by simp)
          simp [joinSlash] at this ⊢
          simp [this]

theorem splitSlash_joinSlash (segs : List (List Char)) (h : ∀ s ∈ segs, '/' ∉ s)
    (hne : segs ≠ []) : splitSlash (joinSlash segs) = segs := by
  induction segs with
  | nil => exact absurd rfl hne
  | cons a rest ih =>
      cases rest with
      | nil => simpa [joinSlash] using splitSlash_noSlash a (h a (by simp))
      | cons b rest =>
          have h1 := ih (fun s hs => h s (by simp [hs])) (by simp)
          have h2 := splitSlash_noSlash a (h a (by simp))
          simp only [joinSlash, splitSlash_append, h1, h2]
          simp

theorem normalizeStack_append (al : Bool) (p q : List Char) (h : EndsSlash p) :
    normalizeStack al (p ++ q) = (splitSlash q).foldl (normalizeStep al) (normalizeStack al p) := by
  rcases h with h | ⟨r, h⟩
  · subst h
    simp [normalizeStack, splitSlash, normalizeStep]
  · subst h
    have e1 : r ++ ['/'] ++ q = r ++ '/' :: q := by simp
    have e2 : normalizeStack al (r ++ ['/']) = normalizeStack al r := by
      simp [normalizeStack, splitSlash_append, splitSlash, normalizeStep]
    rw [e1, e2]
    simp [normalizeStack, splitSlash_append]

theorem resolveLoop_endsSlash (ps : List (List Char)) (acc : List Char) (h : EndsSlash acc) :
    EndsSlash (resolveLoop ps acc).1 := by
  induction ps generalizing acc with
  | nil => simpa [resolveLoop] using h
  | cons p ps ih =>
      have hp : EndsSlash (p ++ '/' :: acc) := by
        rcases h with h | ⟨r, h⟩
        · exact Or.inr ⟨p, by simp [h]⟩
        · exact Or.inr ⟨p ++ '/' :: r, by simp [h]⟩
      unfold resolveLoop
      split
      · exact ih acc h
      · split
        · exact hp
        · exact ih _ hp

theorem resolveLoop_acc (ps : List (List Char)) (acc : List Char) :
    resolveLoop ps acc = ((resolveLoop ps []).1 ++ acc, (resolveLoop ps []).2) := by
  induction ps generalizing acc with
  | nil => simp [resolveLoop]
  | cons p ps ih =>
      unfold resolveLoop
      split
      · exact ih acc
      · split
        · simp
        · rw [ih (p ++ '/' :: acc), ih (p ++ ['/'])]
          simp

/-- Resolving a non-empty relative last argument `x` appends `x/` to what the
loop builds from the remaining arguments. -/
theorem resolveLoop_relative (x : List Char) (ps : List (List Char)) (hx : x ≠ [])
    (hrel : x.head? ≠ some '/') :
    resolveLoop (x :: ps) [] = ((resolveLoop ps []).1 ++ (x ++ ['/']), (resolveLoop ps []).2) := by
  rw [resolveLoop]
  simp only [hx, hrel, if_false]
  exact resolveLoop_acc ps (x ++ ['/'])

theorem posixResolve_eq_render (cwd : String) (args : List String) :
    posixResolve cwd args =
      renderResolved (resolveLoop ((args.reverse ++ [cwd]).map String.data) []).2
        (normalizeStack (!(resolveLoop ((args.reverse ++ [cwd]).map String.data) []).2)
          (resolveLoop ((args.reverse ++ [cwd]).map String.data) []).1) := by
  simp only [posixResolve, renderResolved, normalizeString]

theorem posixResolve_relative (cwd d x : String) (hx : x.data ≠ [])
    (hrel : x.data.head? ≠ some '/') :
    posixResolve cwd [d, x] =
      renderResolved (resolveLoop [d.data, cwd.data] []).2
        ((splitSlash (x.data ++ ['/'])).foldl
          (normalizeStep (!(resolveLoop [d.data, cwd.data] []).2))
          (normalizeStack (!(resolveLoop [d.data, cwd.data] []).2)
            (resolveLoop [d.data, cwd.data] []).1)) := by
  rw [posixResolve_eq_render]
  have e : ([d, x].reverse ++ [cwd]).map String.data = x.data :: [d.data, cwd.data] := by simp
  rw [e, resolveLoop_relative x.data _ hx hrel]
  simp only []
  rw [normalizeStack_append _ _ _ (resolveLoop_endsSlash _ _ (Or.inl rfl))]

theorem resolveLoop_absolute (d cwd : String) (h : isAbsolute d = true) :
    resolveLoop [d.data, cwd.data] [] = (d.data ++ ['/'], true) := by
  have h1 : d.data.head? = some '/' := by simpa [isAbsolute] using h
  have h2 : d.data ≠ [] := by
    intro e
    rw [e] at h1
    simp at h1
  simp [resolveLoop, h1, h2]

theorem posixResolve_one (cwd d : String) :
    posixResolve cwd [d] =
      renderResolved (resolveLoop [d.data, cwd.data] []).2
        (normalizeStack (!(resolveLoop [d.data, cwd.data] []).2)
          (resolveLoop [d.data, cwd.data] []).1) := by
  rw [posixResolve_eq_render]
  simp

theorem normalizeStep_good (al : Bool) (stack : List (List Char)) (seg : List Char)
    (hs : GoodStack stack) (hseg : '/' ∉ seg) : GoodStack (normalizeStep al stack seg) := by
  unfold normalizeStep
  split
  · exact hs
  · rename_i h1
    split
    · rename_i h2
      cases stack with
      | nil =>
          cases al
          · simp [GoodStack]
          · intro s hmem
            simp at hmem
            subst hmem
            simp [h2]
      | cons top rest =>
          simp only []
          split
          · cases al
            · simpa using hs
            · intro s hmem
              simp only [if_true, List.mem_cons] at hmem
              rcases hmem with e | e
              · subst e
                simp [h2]
              · exact hs s (List.mem_cons.mpr e)
          · intro s hmem
            exact hs s (List.mem_cons_of_mem _ hmem)
    · intro s hmem
      rcases List.mem_cons.mp hmem with e | e
      · subst e
        exact ⟨fun e => h1 (Or.inl e), hseg⟩
      · exact hs s e

theorem foldl_normalizeStep_good (al : Bool) (segs : List (List Char)) (stack : List (List Char))
    (hs : GoodStack stack) (hsegs : ∀ s ∈ segs, '/' ∉ s) :
    GoodStack (segs.foldl (normalizeStep al) stack) := by
  induction segs generalizing stack with
  | nil => simpa using hs
  | cons seg segs ih =>
      simp only [List.foldl_cons]
      exact ih _ (normalizeStep_good al stack seg hs (hsegs seg (by simp)))
        (fun s hm => hsegs s (by simp [hm]))

theorem normalizeStack_good (al : Bool) (p : List Char) : GoodStack (normalizeStack al p) :=
  foldl_normalizeStep_good al _ [] (by simp [GoodStack])
    (fun s hs => noSlash_of_mem_splitSlash p s hs)

/-- The segments of a rendered absolute path are the entries of its stack, bottom first. -/
theorem pathSegments_render_absolute (stack : List (List Char)) (h : GoodStack stack) :
    pathSegments (renderResolved true stack) = stack.reverse.map String.mk := by
  have hrev : ∀ s ∈ stack.reverse, '/' ∉ s := fun s hs => (h s (List.mem_reverse.mp hs)).2
  have hne : ∀ s ∈ stack.reverse, s ≠ [] := fun s hs => (h s (List.mem_reverse.mp hs)).1
  simp only [pathSegments, renderResolved, if_true]
  by_cases he : stack.reverse = []
  · simp [he, joinSlash, splitSlash]
  · have e : splitSlash ('/' :: joinSlash stack.reverse) = [] :: stack.reverse := by
      simp [splitSlash, splitSlash_joinSlash _ hrev he]
    rw [e]
    congr 1
    rw [List.filter_cons]
    simp only [List.isEmpty_nil, Bool.not_true, Bool.false_eq_true, if_false]
    rw [List.filter_eq_self]
    intro s hs
    have := hne s hs
    cases s with
    | nil => exact absurd rfl this
    | cons a b => rfl

theorem pathSegments_resolve_base (cwd d : String) (hd : isAbsolute d = true) :
    pathSegments (posixResolve cwd [d]) = (baseStack d).reverse.map String.mk := by
  rw [posixResolve_one, resolveLoop_absolute d cwd hd]
  exact pathSegments_render_absolute _ (normalizeStack_good _ _)

theorem pathSegments_resolve_under (cwd d x : String) (hd : isAbsolute d = true)
    (hx : x.data ≠ []) (hrel : x.data.head? ≠ some '/') :
    pathSegments (posixResolve cwd [d, x]) =
      ((splitSlash (x.data ++ ['/'])).foldl (normalizeStep false) (baseStack d)).reverse.map
        String.mk := by
  rw [posixResolve_relative cwd d x hx hrel, resolveLoop_absolute d cwd hd]
  exact pathSegments_render_absolute _
    (foldl_normalizeStep_good _ _ _ (normalizeStack_good _ _)
      (fun s hs => noSlash_of_mem_splitSlash _ s hs))

theorem isAbsolute_resolve (cwd d x : String) (hd : isAbsolute d = true)
    (hx : x.data ≠ []) (hrel : x.data.head? ≠ some '/') :
    isAbsolute (posixResolve cwd [d, x]) = true := by
  rw [posixResolve_relative cwd d x hx hrel, resolveLoop_absolute d cwd hd]
  simp [renderResolved, isAbsolute]

theorem joinSlash_snoc_length (segs : List (List Char)) (s : List Char) (hs : s ≠ []) :
    0 < (joinSlash (segs ++ [s])).length := by
  by_cases h : segs = []
  · subst h
    simpa [joinSlash] using List.length_pos.mpr hs
  · rw [joinSlash_snoc segs s h]
    simp

theorem renderResolved_push (absolute : Bool) (stack : List (List Char)) (s t : List Char)
    (hs : s ≠ []) :
    renderResolved absolute (t :: s :: stack) =
      renderResolved absolute (s :: stack) ++ String.mk ('/' :: t) := by
  have h1 : (t :: s :: stack).reverse = (stack.reverse ++ [s]) ++ [t] := by simp
  have h2 : (s :: stack).reverse = stack.reverse ++ [s] := by simp
  have hne : stack.reverse ++ [s] ≠ [] := by simp
  have hlen := joinSlash_snoc_length stack.reverse s hs
  apply String.ext
  cases absolute
  · simp only [renderResolved, h1, h2, joinSlash_snoc _ t hne, String.data_append]
    simp [hlen]
  · simp only [renderResolved, h1, h2, joinSlash_snoc _ t hne, String.data_append]
    simp

theorem normalizeStep_noDotDot (stack : List (List Char)) (seg : List Char)
    (hs : NoDotDot stack) : NoDotDot (normalizeStep false stack seg) := by
  unfold normalizeStep
  split
  · exact hs
  · split
    · cases stack with
      | nil => simp [NoDotDot]
      | cons top rest =>
          simp only []
          split
          · simpa using hs
          · intro s hmem
            exact hs s (List.mem_cons_of_mem _ hmem)
    · rename_i h2
      intro s hmem
      rcases List.mem_cons.mp hmem with e | e
      · subst e
        exact h2
      · exact hs s e

theorem foldl_normalizeStep_noDotDot (segs : List (List Char)) (stack : List (List Char))
    (hs : NoDotDot stack) : NoDotDot (segs.foldl (normalizeStep false) stack) := by
  induction segs generalizing stack with
  | nil => simpa using hs
  | cons seg segs ih =>
      simp only [List.foldl_cons]
      exact ih _ (normalizeStep_noDotDot stack seg hs)

theorem baseStack_noDotDot (d : String) : NoDotDot (baseStack d) :=
  foldl_normalizeStep_noDotDot _ [] (by simp [NoDotDot])

theorem isAbsolute_resolve_base (cwd d : String) (hd : isAbsolute d = true) :
    isAbsolute (posixResolve cwd [d]) = true := by
  rw [posixResolve_one, resolveLoop_absolute d cwd hd]
  simp [renderResolved, isAbsolute]

theorem hasDotDot_resolve_under (cwd d x : String) (hd : isAbsolute d = true)
    (hx : x.data ≠ []) (hrel : x.data.head? ≠ some '/') :
    hasDotDot (posixResolve cwd [d, x]) = false := by
  have hn := foldl_normalizeStep_noDotDot (splitSlash (x.data ++ ['/'])) (baseStack d)
    (baseStack_noDotDot d)
  rw [hasDotDot, pathSegments_resolve_under cwd d x hd hx hrel]
  rw [List.contains_eq_any_beq, Bool.eq_false_iff]
  intro hc
  rw [List.any_eq_true] at hc
  obtain ⟨y, hy, hbeq⟩ := hc
  rw [List.mem_map] at hy
  obtain ⟨s, hs, rfl⟩ := hy
  have e : ".." = String.mk s := by simpa using hbeq
  have e2 : s = ['.', '.'] := by
    have := congrArg String.data e
    simpa using this.symm
  exact hn s (List.mem_reverse.mp hs) e2

/-- A resolved path whose segments extend those of the resolved base by at
least one segment lies strictly beneath the base. -/
theorem isStrictlyBeneath_resolve (cwd d x : String) (extra : List String)
    (hd : isAbsolute d = true) (hx : x.data ≠ []) (hrel : x.data.head? ≠ some '/')
    (hseg : pathSegments (posixResolve cwd [d, x]) = pathSegments (posixResolve cwd [d]) ++ extra)
    (hne : extra ≠ []) :
    isStrictlyBeneath (posixResolve cwd [d, x]) (posixResolve cwd [d]) = true := by
  have hlen : 0 < extra.length := List.length_pos.mpr hne
  simp only [isStrictlyBeneath, isAbsolute_resolve cwd d x hd hx hrel,
    isAbsolute_resolve_base cwd d hd, hasDotDot_resolve_under cwd d x hd hx hrel, hseg,
    Bool.and_eq_true, Bool.not_false, decide_eq_true_eq, List.length_append, true_and]
  refine ⟨?_, by omega⟩
  rw [ List.isPrefixOf_iff_prefix]
  exact List.prefix_append _ _

/-- Segments of `resolve(d, x)` for an absolute `d` and a relative `x` whose
pieces are all kept by the normalisation. -/
theorem pathSegments_resolve_plain (cwd d x : String) (pieces : List (List Char))
    (hd : isAbsolute d = true) (hx : x.data ≠ []) (hrel : x.data.head? ≠ some '/')
    (hsplit : splitSlash (x.data ++ ['/']) = pieces ++ [[]])
    (hplain : ∀ s ∈ pieces, s ≠ [] ∧ s ≠ ['.'] ∧ s ≠ ['.', '.']) :
    pathSegments (posixResolve cwd [d, x]) =
      pathSegments (posixResolve cwd [d]) ++ pieces.map String.mk := by
  rw [pathSegments_resolve_under cwd d x hd hx hrel, pathSegments_resolve_base cwd d hd, hsplit]
  have key : ∀ (ps : List (List Char)) (st : List (List Char)),
      (∀ s ∈ ps, s ≠ [] ∧ s ≠ ['.'] ∧ s ≠ ['.', '.']) →
      ps.foldl (normalizeStep false) st = ps.reverse ++ st := by
    intro ps
    induction ps with
    | nil => intro st _; rfl
    | cons p ps ih =>
        intro st hp
        have h1 := hp p (by simp)
        have e : normalizeStep false st p = p :: st := by
          simp [normalizeStep, h1.1, h1.2.1, h1.2.2]
        rw [List.foldl_cons, e, ih _ (fun s hs => hp s (by simp [hs]))]
        simp
  rw [List.foldl_append, key pieces _ hplain]
  simp [normalizeStep]

/-! ## Lemmas on alias matching -/

/-- Resolving `y = x/t` gives the string resolving `x` gives, followed by `/t`,
whatever the directory and the working directory are. -/
theorem posixResolve_child (cwd d x y : String) (s t : List Char)
    (hx : x.data ≠ []) (hrelx : x.data.head? ≠ some '/')
    (hy : y.data ≠ []) (hrely : y.data.head? ≠ some '/')
    (hsx : splitSlash (x.data ++ ['/']) = [s, []])
    (hsy : splitSlash (y.data ++ ['/']) = [s, t, []])
    (hs : s ≠ [] ∧ s ≠ ['.'] ∧ s ≠ ['.', '.']) (ht : t ≠ [] ∧ t ≠ ['.'] ∧ t ≠ ['.', '.']) :
    posixResolve cwd [d, y] = posixResolve cwd [d, x] ++ String.mk ('/' :: t) := by
  rw [posixResolve_relative cwd d y hy hrely, posixResolve_relative cwd d x hx hrelx, hsx, hsy]
  simp only [List.foldl_cons, List.foldl_nil]
  have p1 : ∀ al st, normalizeStep al st s = s :: st := by
    intro al st; simp [normalizeStep, hs.1, hs.2.1, hs.2.2]
  have p2 : ∀ al st, normalizeStep al st t = t :: st := by
    intro al st; simp [normalizeStep, ht.1, ht.2.1, ht.2.2]
  have p3 : ∀ al st, normalizeStep al st [] = st := by
    intro al st; simp [normalizeStep]
  rw [p1, p2, p3, p3]
  exact renderResolved_push _ _ _ _ hs.1

theorem aliasEntries_eq (env : Env) : aliasEntries env =
    [("@", env.resolve [env.dirname, "src"]), ("@js", env.resolve [env.dirname, "src/js"]),
     ("@css", env.resolve [env.dirname, "src/css"])] := rfl

theorem aliasMatches_iff (k s : String) :
    aliasMatches k s = true ↔ s.data = k.data ∨ ∃ rest, s.data = k.data ++ '/' :: rest := by
  simp only [aliasMatches, Bool.or_eq_true, beq_iff_eq, List.isPrefixOf_iff_prefix]
  constructor
  · rintro (h | ⟨t, ht⟩)
    · exact Or.inl (by rw [h])
    · exact Or.inr ⟨t, by rw [← ht]; simp⟩
  · rintro (h | ⟨t, ht⟩)
    · exact Or.inl (String.ext h)
    · exact Or.inr ⟨t, by rw [ht]; simp⟩

theorem at_not_js (s : String) (h1 : aliasMatches "@" s = true)
    (h2 : aliasMatches "@js" s = true) : False := by
  rw [aliasMatches_iff] at h1 h2
  have e1 : ("@" : String).data = ['@'] := rfl
  have e2 : ("@js" : String).data = ['@', 'j', 's'] := rfl
  rw [e1] at h1
  rw [e2] at h2
  rcases h1 with h1 | ⟨r1, h1⟩ <;> rcases h2 with h2 | ⟨r2, h2⟩ <;> rw [h1] at h2 <;> simp at h2

theorem at_not_css (s : String) (h1 : aliasMatches "@" s = true)
    (h2 : aliasMatches "@css" s = true) : False := by
  rw [aliasMatches_iff] at h1 h2
  have e1 : ("@" : String).data = ['@'] := rfl
  have e2 : ("@css" : String).data = ['@', 'c', 's', 's'] := rfl
  rw [e1] at h1
  rw [e2] at h2
  rcases h1 with h1 | ⟨r1, h1⟩ <;> rcases h2 with h2 | ⟨r2, h2⟩ <;> rw [h1] at h2 <;> simp at h2

theorem js_not_css (s : String) (h1 : aliasMatches "@js" s = true)
    (h2 : aliasMatches "@css" s = true) : False := by
  rw [aliasMatches_iff] at h1 h2
  have e1 : ("@js" : String).data = ['@', 'j', 's'] := rfl
  have e2 : ("@css" : String).data = ['@', 'c', 's', 's'] := rfl
  rw [e1] at h1
  rw [e2] at h2
  rcases h1 with h1 | ⟨r1, h1⟩ <;> rcases h2 with h2 | ⟨r2, h2⟩ <;> rw [h1] at h2 <;> simp at h2

/-- The first element satisfying `p` does not depend on the order of a list in
which at most one element satisfies `p`. -/
theorem find?_perm_of_unique {α : Type} (p : α → Bool) (l₁ l₂ : List α) (h : l₁.Perm l₂)
    (uniq : ∀ a ∈ l₁, ∀ b ∈ l₁, p a = true → p b = true → a = b) :
    l₁.find? p = l₂.find? p := by
  cases h1 : l₁.find? p with
  | none =>
      symm
      rw [List.find?_eq_none] at h1 ⊢
      intro x hx
      exact h1 x (h.mem_iff.mpr hx)
  | some a =>
      have ha : a ∈ l₁ := List.mem_of_find?_eq_some h1
      have hpa : p a = true := List.find?_some h1
      cases h2 : l₂.find? p with
      | none =>
          rw [List.find?_eq_none] at h2
          exact absurd hpa (h2 a (h.mem_iff.mp ha))
      | some b =>
          have hb : b ∈ l₁ := h.mem_iff.mpr (List.mem_of_find?_eq_some h2)
          have hpb : p b = true := List.find?_some h2
          rw [uniq a ha b hb hpa hpb]

theorem alias_unique (env : Env) (s : String) :
    ∀ a ∈ aliasEntries env, ∀ b ∈ aliasEntries env,
      aliasMatches a.1 s = true → aliasMatches b.1 s = true → a = b := by
  intro a ha b hb hma hmb
  rw [aliasEntries_eq] at ha hb
  simp only [List.mem_cons, List.mem_singleton, List.not_mem_nil, or_false] at ha hb
  rcases ha with rfl | rfl | rfl <;> rcases hb with rfl | rfl | rfl <;>
    first
    | rfl
    | exact (at_not_js s hma hmb).elim
    | exact (at_not_js s hmb hma).elim
    | exact (at_not_css s hma hmb).elim
    | exact (at_not_css s hmb hma).elim
    | exact (js_not_css s hma hmb).elim
    | exact (js_not_css s hmb hma).elim

theorem alias_atMostOne (env : Env) (s : String) :
    ((aliasEntries env).filter (fun e => aliasMatches e.1 s)).length ≤ 1 := by
  rw [aliasEntries_eq]
  by_cases h1 : aliasMatches "@" s = true <;> by_cases h2 : aliasMatches "@js" s = true <;>
    by_cases h3 : aliasMatches "@css" s = true
  · exact (at_not_js s h1 h2).elim
  · exact (at_not_js s h1 h2).elim
  · exact (at_not_css s h1 h3).elim
  · simp [List.filter, h1, h2, h3]
  · exact (js_not_css s h2 h3).elim
  · simp [List.filter, h1, h2, h3]
  · simp [List.filter, h1, h2, h3]
  · simp [List.filter, h1, h2, h3]

/-- Induction over a list two elements at a time, as the template scan reads
it. -/
theorem list_two_step (P : List Char → Prop) (h0 : P []) (h1 : ∀ c, P [c])
    (h2 : ∀ c e rest, P rest → P (e :: rest) → P (c :: e :: rest)) : ∀ t, P t := by
  intro t
  have h : P t ∧ ∀ c, P (c :: t) := by
    induction t with
    | nil => exact ⟨h0, h1⟩
    | cons a t ih => exact ⟨ih.2 a, fun c => h2 c a t ih.1 (ih.2 a)⟩
  exact h.1

/-- A template followed by a slash expands to the expansion of the template
followed by the expansion of the rest. -/
theorem getSubstitution_append_slash (m b a u : List Char) :
    ∀ t, getSubstitution m b a (t ++ '/' :: u) =
      getSubstitution m b a t ++ getSubstitution m b a ('/' :: u) := by
  have hs : ('/' : Char) ≠ '$' ∧ ('/' : Char) ≠ '&' ∧ ('/' : Char) ≠ backquote ∧
      ('/' : Char) ≠ apostrophe := by decide
  apply list_two_step
  · rfl
  · intro c
    by_cases hc : c = '$'
    · subst hc
      simp [getSubstitution, hs.1, hs.2.1, hs.2.2.1, hs.2.2.2]
    · simp [getSubstitution, hc]
  · intro c e rest ih1 ih2
    have e1 : (c :: e :: rest) ++ '/' :: u = c :: e :: (rest ++ '/' :: u) := rfl
    have e2 : (e :: rest) ++ '/' :: u = e :: (rest ++ '/' :: u) := rfl
    rw [e2] at ih2
    rw [e1]
    simp only [getSubstitution]
    split
    · split
      · rw [ih1]; simp
      · split
        · rw [ih1]; simp
        · split
          · rw [ih1]; simp
          · split
            · rw [ih1]; simp
            · rw [ih2]; simp
    · rw [ih2]; simp

/-- A template without `$&` and without a dollar sign followed by an apostrophe
expands to the same text whatever the match and the text after it are. -/
theorem getSubstitution_congr (m1 m2 b a1 a2 : List Char) :
    ∀ t, insertsMatchOrTail t = false →
      getSubstitution m1 b a1 t = getSubstitution m2 b a2 t := by
  apply list_two_step
  · intro _; rfl
  · intro c _; rfl
  · intro c e rest ih1 ih2 h
    simp only [insertsMatchOrTail] at h
    simp only [getSubstitution]
    split
    · rename_i hc
      simp only [hc, if_true] at h
      split
      · rename_i he
        simp only [he, if_true] at h
        rw [ih1 h]
      · rename_i he
        simp only [he, if_false] at h
        split
        · rename_i he2
          simp [he2] at h
        · rename_i he2
          simp only [he2, if_false] at h
          split
          · rename_i he3
            simp only [he3, if_true] at h
            rw [ih1 h]
          · rename_i he3
            simp only [he3, if_false] at h
            split
            · rename_i he4
              simp [he4] at h
            · rename_i he4
              simp only [he4, if_false] at h
              rw [ih2 h]
    · rename_i hc
      simp only [hc, if_false] at h
      rw [ih2 h]

/-- A template without a dollar sign has none of the patterns. -/
theorem insertsMatchOrTail_of_no_dollar :
    ∀ t, '$' ∉ t → insertsMatchOrTail t = false := by
  apply list_two_step
  · intro _; rfl
  · intro c _; rfl
  · intro c e rest _ ih2 h
    have hc : c ≠ '$' := fun e0 => h (by simp [e0])
    have ht : '$' ∉ e :: rest := fun hm => h (List.mem_cons_of_mem _ hm)
    simp only [insertsMatchOrTail, hc, if_false]
    exact ih2 ht

/-- When the key starts the string, `replace` acts there. -/
theorem replaceFrom_of_isPrefixOf (find repl s : List Char) (h : find.isPrefixOf s = true) :
    replaceFrom find repl [] s =
      getSubstitution find [] (s.drop find.length) repl ++ s.drop find.length := by
  cases s with
  | nil =>
      have hf : find = [] := by
        cases find with
        | nil => rfl
        | cons x xs => simp [List.isPrefixOf] at h
      subst hf
      simp [replaceFrom]
  | cons c cs => simp [replaceFrom, h]

/-- The rewriting of a specifier `key/q` by an entry with that key at the head
of the entries. -/
theorem jsReplace_key_slash (key target q : String) :
    jsReplace (key ++ "/" ++ q) key target =
      String.mk (getSubstitution key.data [] ('/' :: q.data) target.data ++ '/' :: q.data) := by
  have hp : key.data.isPrefixOf (key ++ "/" ++ q).data = true := by
    rw [ List.isPrefixOf_iff_prefix]
    exact ⟨'/' :: q.data, by simp [String.data_append]⟩
  have hd : (key ++ "/" ++ q).data.drop key.data.length = '/' :: q.data := by
    simp [String.data_append]
  rw [jsReplace, replaceFrom_of_isPrefixOf _ _ _ hp, hd]

theorem rewrite_at (env : Env) (q : String) :
    rewriteImport (aliasEntries env) ("@" ++ "/" ++ q) =
      some (String.mk (getSubstitution ['@'] [] ('/' :: q.data)
        (env.resolve [env.dirname, "src"]).data ++ '/' :: q.data)) := by
  have m1 : aliasMatches "@" ("@" ++ "/" ++ q) = true := by
    rw [aliasMatches_iff]
    exact Or.inr ⟨q.data, by simp [String.data_append]⟩
  rw [aliasEntries_eq]
  simp only [rewriteImport, List.find?, m1, Option.map_some']
  rw [jsReplace_key_slash]

theorem rewrite_js (env : Env) (p : String) :
    rewriteImport (aliasEntries env) ("@js" ++ "/" ++ p) =
      some (String.mk (getSubstitution ['@', 'j', 's'] [] ('/' :: p.data)
        (env.resolve [env.dirname, "src/js"]).data ++ '/' :: p.data)) := by
  have m2 : aliasMatches "@js" ("@js" ++ "/" ++ p) = true := by
    rw [aliasMatches_iff]
    exact Or.inr ⟨p.data, by simp [String.data_append]⟩
  have m1 : aliasMatches "@" ("@js" ++ "/" ++ p) = false := by
    rw [Bool.eq_false_iff]
    exact fun h => at_not_js _ h m2
  rw [aliasEntries_eq]
  simp only [rewriteImport, List.find?, m1, m2, Option.map_some']
  rw [jsReplace_key_slash]

theorem rewrite_css (env : Env) (p : String) :
    rewriteImport (aliasEntries env) ("@css" ++ "/" ++ p) =
      some (String.mk (getSubstitution ['@', 'c', 's', 's'] [] ('/' :: p.data)
        (env.resolve [env.dirname, "src/css"]).data ++ '/' :: p.data)) := by
  have m3 : aliasMatches "@css" ("@css" ++ "/" ++ p) = true := by
    rw [aliasMatches_iff]
    exact Or.inr ⟨p.data, by simp [String.data_append]⟩
  have m1 : aliasMatches "@" ("@css" ++ "/" ++ p) = false := by
    rw [Bool.eq_false_iff]
    exact fun h => at_not_css _ h m3
  have m2 : aliasMatches "@js" ("@css" ++ "/" ++ p) = false := by
    rw [Bool.eq_false_iff]
    exact fun h => js_not_css _ h m3
  rw [aliasEntries_eq]
  simp only [rewriteImport, List.find?, m1, m2, m3, Option.map_some']
  rw [jsReplace_key_slash]

/-- A template without a dollar sign is inserted as it stands. -/
theorem getSubstitution_of_no_dollar (m b a : List Char) :
    ∀ t, '$' ∉ t → getSubstitution m b a t = t := by
  apply list_two_step
  · intro _; rfl
  · intro c _; rfl
  · intro c e rest _ ih2 h
    have hc : c ≠ '$' := fun e0 => h (by simp [e0])
    have ht : '$' ∉ e :: rest := fun hm => h (List.mem_cons_of_mem _ hm)
    simp only [getSubstitution, hc, if_false]
    rw [ih2 ht]

theorem mem_normalizeStep (al : Bool) (st : List (List Char)) (seg s : List Char)
    (h : s ∈ normalizeStep al st seg) : s ∈ st ∨ s = seg := by
  unfold normalizeStep at h
  split at h
  · exact Or.inl h
  · split at h
    · cases st with
      | nil =>
          cases al
          · simp at h
          · simp at h
            exact Or.inr h
      | cons top rest =>
          simp only [] at h
          split at h
          · cases al
            · exact Or.inl (by simpa using h)
            · simp only [if_true, List.mem_cons] at h
              rcases h with h | h
              · exact Or.inr h
              · exact Or.inl (List.mem_cons.mpr h)
          · exact Or.inl (List.mem_cons_of_mem _ h)
    · rcases List.mem_cons.mp h with h | h
      · exact Or.inr h
      · exact Or.inl h

theorem mem_foldl_normalizeStep (al : Bool) (segs : List (List Char)) (st : List (List Char))
    (s : List Char) (h : s ∈ segs.foldl (normalizeStep al) st) : s ∈ st ∨ s ∈ segs := by
  induction segs generalizing st with
  | nil => exact Or.inl (by simpa using h)
  | cons seg segs ih =>
      simp only [List.foldl_cons] at h
      rcases ih _ h with h1 | h1
      · rcases mem_normalizeStep al st seg s h1 with h2 | h2
        · exact Or.inl h2
        · exact Or.inr (by simp [h2])
      · exact Or.inr (List.mem_cons_of_mem _ h1)

theorem mem_of_mem_splitSlash (p seg : List Char) (c : Char) (hs : seg ∈ splitSlash p)
    (hc : c ∈ seg) : c ∈ p := by
  induction p generalizing seg with
  | nil =>
      simp [splitSlash] at hs
      subst hs
      simp at hc
  | cons a p ih =>
      by_cases ha : a = '/'
      · simp [splitSlash, ha] at hs
        rcases hs with hs | hs
        · subst hs
          simp at hc
        · exact List.mem_cons_of_mem _ (ih seg hs hc)
      · have hne := splitSlash_ne_nil p
        cases hsp : splitSlash p with
        | nil => exact absurd hsp hne
        | cons s0 ss =>
            simp [splitSlash, ha, hsp] at hs
            rcases hs with hs | hs
            · subst hs
              rcases List.mem_cons.mp hc with e | e
              · simp [e]
              · exact List.mem_cons_of_mem _ (ih s0 (by simp [hsp]) e)
            · exact List.mem_cons_of_mem _ (ih seg (by simp [hsp, hs]) hc)

theorem mem_joinSlash (segs : List (List Char)) (c : Char) (h : c ∈ joinSlash segs) :
    c = '/' ∨ ∃ s ∈ segs, c ∈ s := by
  induction segs with
  | nil => simp [joinSlash] at h
  | cons a rest ih =>
      cases rest with
      | nil => exact Or.inr ⟨a, by simp, by simpa [joinSlash] using h⟩
      | cons b rest =>
          simp only [joinSlash, List.mem_append, List.mem_cons] at h
          rcases h with h | h | h
          · exact Or.inr ⟨a, by simp, h⟩
          · exact Or.inl h
          · rcases ih h with h1 | ⟨s, hs, hcs⟩
            · exact Or.inl h1
            · exact Or.inr ⟨s, List.mem_cons_of_mem _ hs, hcs⟩

/-- Every character of `resolve(d, x)`, for an absolute `d` and a relative `x`,
is a slash or a character of `d` or of `x`. -/
theorem mem_posixResolve (cwd d x : String) (c : Char) (hd : isAbsolute d = true)
    (hx : x.data ≠ []) (hrel : x.data.head? ≠ some '/')
    (h : c ∈ (posixResolve cwd [d, x]).data) : c = '/' ∨ c ∈ d.data ∨ c ∈ x.data := by
  rw [posixResolve_relative cwd d x hx hrel, resolveLoop_absolute d cwd hd] at h
  simp only [renderResolved, if_true, List.mem_cons] at h
  rcases h with h | h
  · exact Or.inl h
  · rcases mem_joinSlash _ c h with h1 | ⟨s, hs, hcs⟩
    · exact Or.inl h1
    · rcases mem_foldl_normalizeStep _ _ _ s (List.mem_reverse.mp hs) with h2 | h2
      · rcases mem_foldl_normalizeStep _ _ _ s h2 with h3 | h3
        · simp at h3
        · have := mem_of_mem_splitSlash _ s c h3 hcs
          simp only [List.mem_append, List.mem_singleton] at this
          rcases this with e | e
          · exact Or.inr (Or.inl e)
          · exact Or.inl e
      · have := mem_of_mem_splitSlash _ s c h2 hcs
        simp only [List.mem_append, List.mem_singleton] at this
        rcases this with e | e
        · exact Or.inr (Or.inr e)
        · exact Or.inl e

/-! ## The claims -/

/-- C1: the list `optimizeDeps.include` names the same packages as the values
of the manual chunks, both being exactly vue, pdf-lib, pdfjs-dist and moveable,
and it has four entries, none of them twice. -/
theorem optimizeDeps_include_matches_manualChunks (env : Env) :
    (exportedConfig env).path ["optimizeDeps", "include"] =
      Value.arr [Value.str "vue", Value.str "pdf-lib", Value.str "pdfjs-dist",
        Value.str "moveable"] ∧
    (∀ p, p ∈ optimizeDepsInclude env ↔ p ∈ manualChunkPackages env) ∧
    (∀ p, p ∈ optimizeDepsInclude env ↔ p ∈ ["vue", "pdf-lib", "pdfjs-dist", "moveable"]) ∧
    (∀ p, p ∈ manualChunkPackages env ↔ p ∈ ["vue", "pdf-lib", "pdfjs-dist", "moveable"]) ∧
    (optimizeDepsInclude env).length = 4 ∧
    (optimizeDepsInclude env).Nodup := by
  have e1 : optimizeDepsInclude env = ["vue", "pdf-lib", "pdfjs-dist", "moveable"] := rfl
  have e2 : manualChunkPackages env = ["vue", "pdf-lib", "pdfjs-dist", "moveable"] := rfl
  refine ⟨rfl, ?_, ?_, ?_, ?_, ?_⟩
  · intro p; rw [e1, e2]
  · intro p; rw [e1]
  · intro p; rw [e2]
  · rw [e1]; rfl
  · rw [e1]; decide

/-- C2: `manualChunks` defines exactly the four chunks vue, pdflib, pdfjs and
moveable, holding vue, pdf-lib, pdfjs-dist and moveable respectively; every
chunk lists one package, the chunk names are pairwise distinct and no package
is listed in two chunks. -/
theorem manualChunks_one_library_each (env : Env) :
    (exportedConfig env).path ["build", "rollupOptions", "output", "manualChunks"] =
      Value.obj [("vue", Value.arr [Value.str "vue"]),
        ("pdflib", Value.arr [Value.str "pdf-lib"]),
        ("pdfjs", Value.arr [Value.str "pdfjs-dist"]),
        ("moveable", Value.arr [Value.str "moveable"])] ∧
    manualChunks env =
      [("vue", ["vue"]), ("pdflib", ["pdf-lib"]), ("pdfjs", ["pdfjs-dist"]),
        ("moveable", ["moveable"])] ∧
    (manualChunks env).length = 4 ∧
    (∀ c ∈ manualChunks env, c.2.length = 1) ∧
    ((manualChunks env).map Prod.fst).Nodup ∧
    (manualChunks env).Pairwise (fun a b => List.Disjoint a.2 b.2) := by
  have e : manualChunks env =
      [("vue", ["vue"]), ("pdflib", ["pdf-lib"]), ("pdfjs", ["pdfjs-dist"]),
        ("moveable", ["moveable"])] := rfl
  refine ⟨rfl, e, ?_, ?_, ?_, ?_⟩
  · rw [e]; rfl
  · rw [e]; decide
  · rw [e]; decide
  · rw [e]; simp [List.Disjoint]

/-- C3: `resolve.alias` has exactly the three keys `@`, `@js` and `@css`, with
targets `resolve(d, 'src')`, `resolve(d, 'src/js')` and `resolve(d, 'src/css')`
for whatever function is imported as `resolve`; with the POSIX `resolve` and an
absolute directory `d` the segments of the targets are those of `d` followed by
`src`, by `src`, `js` and by `src`, `css`, so each target lies strictly beneath
the directory `d` denotes, which is `d` itself when `d` is in normal form. -/
theorem alias_targets_beneath_root (cwd d : String) (hd : isAbsolute d = true) :
    (∀ env : Env, (exportedConfig env).path ["resolve", "alias"] =
      Value.obj [("@", Value.str (env.resolve [env.dirname, "src"])),
        ("@js", Value.str (env.resolve [env.dirname, "src/js"])),
        ("@css", Value.str (env.resolve [env.dirname, "src/css"]))]) ∧
    ((exportedConfig (posixEnv cwd d)).path ["resolve", "alias"]).keys = ["@", "@js", "@css"] ∧
    aliasEntries (posixEnv cwd d) =
      [("@", posixResolve cwd [d, "src"]), ("@js", posixResolve cwd [d, "src/js"]),
        ("@css", posixResolve cwd [d, "src/css"])] ∧
    pathSegments (posixResolve cwd [d, "src"]) =
      pathSegments (posixResolve cwd [d]) ++ ["src"] ∧
    pathSegments (posixResolve cwd [d, "src/js"]) =
      pathSegments (posixResolve cwd [d]) ++ ["src", "js"] ∧
    pathSegments (posixResolve cwd [d, "src/css"]) =
      pathSegments (posixResolve cwd [d]) ++ ["src", "css"] ∧
    (∀ e ∈ aliasEntries (posixEnv cwd d),
      isStrictlyBeneath e.2 (posixResolve cwd [d]) = true) ∧
    (posixResolve cwd [d] = d →
      ∀ e ∈ aliasEntries (posixEnv cwd d), isStrictlyBeneath e.2 d = true) := by
  have s1 := pathSegments_resolve_plain cwd d "src" [['s', 'r', 'c']] hd (by decide) (by decide)
    (by decide) (by decide)
  have s2 := pathSegments_resolve_plain cwd d "src/js" [['s', 'r', 'c'], ['j', 's']] hd
    (by decide) (by decide) (by decide) (by decide)
  have s3 := pathSegments_resolve_plain cwd d "src/css" [['s', 'r', 'c'], ['c', 's', 's']] hd
    (by decide) (by decide) (by decide) (by decide)
  have hall : ∀ e ∈ aliasEntries (posixEnv cwd d),
      isStrictlyBeneath e.2 (posixResolve cwd [d]) = true := by
    intro e he
    have hent : aliasEntries (posixEnv cwd d) =
        [("@", posixResolve cwd [d, "src"]), ("@js", posixResolve cwd [d, "src/js"]),
          ("@css", posixResolve cwd [d, "src/css"])] := rfl
    rw [hent] at he
    simp only [List.mem_cons, List.mem_singleton, List.not_mem_nil, or_false] at he
    rcases he with rfl | rfl | rfl
    · exact isStrictlyBeneath_resolve cwd d "src" _ hd (by decide) (by decide) s1 (by decide)
    · exact isStrictlyBeneath_resolve cwd d "src/js" _ hd (by decide) (by decide) s2 (by decide)
    · exact isStrictlyBeneath_resolve cwd d "src/css" _ hd (by decide) (by decide) s3 (by decide)
  refine ⟨fun _ => rfl, rfl, rfl, s1, s2, s3, hall, ?_⟩
  intro hnorm e he
  have h := hall e he
  rw [hnorm] at h
  exact h

/-- Witness for C3: the configuration in `/home/user/pdfpea`. -/
theorem alias_targets_beneath_root_witness :
    isAbsolute "/home/user/pdfpea" = true ∧
    aliasEntries (posixEnv "/tmp" "/home/user/pdfpea") =
      [("@", "/home/user/pdfpea/src"), ("@js", "/home/user/pdfpea/src/js"),
        ("@css", "/home/user/pdfpea/src/css")] ∧
    (∀ e ∈ aliasEntries (posixEnv "/tmp" "/home/user/pdfpea"),
      isStrictlyBeneath e.2 "/home/user/pdfpea" = true) :=
  ⟨by decide, by decide,
    (alias_targets_beneath_root "/tmp" "/home/user/pdfpea" (by decide)).2.2.2.2.2.2.2
      (by decide)⟩

/-- C4: `build.rollupOptions.input` has the single entry `main`, whose value is
`resolve(d, 'index.html')` for whatever function is imported as `resolve`; with
the POSIX `resolve` and an absolute directory `d` that path is `index.html`
directly in the directory `d` denotes, which is `d` itself when `d` is in
normal form. -/
theorem input_single_html_entry (cwd d : String) (hd : isAbsolute d = true) :
    (∀ env : Env, (exportedConfig env).path ["build", "rollupOptions", "input"] =
      Value.obj [("main", Value.str (env.resolve [env.dirname, "index.html"]))]) ∧
    ((exportedConfig (posixEnv cwd d)).path ["build", "rollupOptions", "input"]).keys =
      ["main"] ∧
    configString (posixEnv cwd d) ["build", "rollupOptions", "input", "main"] =
      some (posixResolve cwd [d, "index.html"]) ∧
    pathSegments (posixResolve cwd [d, "index.html"]) =
      pathSegments (posixResolve cwd [d]) ++ ["index.html"] ∧
    isStrictlyBeneath (posixResolve cwd [d, "index.html"]) (posixResolve cwd [d]) = true ∧
    (posixResolve cwd [d] = d →
      pathSegments (posixResolve cwd [d, "index.html"]) = pathSegments d ++ ["index.html"]) := by
  have s1 := pathSegments_resolve_plain cwd d "index.html"
    [['i', 'n', 'd', 'e', 'x', '.', 'h', 't', 'm', 'l']] hd (by decide) (by decide)
    (by decide) (by decide)
  refine ⟨fun _ => rfl, rfl, rfl, s1,
    isStrictlyBeneath_resolve cwd d "index.html" _ hd (by decide) (by decide) s1 (by decide), ?_⟩
  intro hnorm
  have h := s1
  rw [hnorm] at h
  exact h

/-- Witness for C4: the configuration in `/home/user/pdfpea`. -/
theorem input_single_html_entry_witness :
    isAbsolute "/home/user/pdfpea" = true ∧
    configString (posixEnv "/tmp" "/home/user/pdfpea") ["build", "rollupOptions", "input", "main"] =
      some "/home/user/pdfpea/index.html" ∧
    pathSegments (posixResolve "/tmp" ["/home/user/pdfpea", "index.html"]) =
      pathSegments "/home/user/pdfpea" ++ ["index.html"] :=
  ⟨by decide, by decide,
    (input_single_html_entry "/tmp" "/home/user/pdfpea" (by decide)).2.2.2.2.2 (by decide)⟩

/-- C5: the configuration sets `root` to `.`, `publicDir` to `public`,
`build.outDir` to `dist` and `build.assetsDir` to `assets`; the four strings are
relative paths without a `..` segment, and resolved against any absolute
directory `b` they give `b` itself, `public`, `dist` and `assets` in `b`. -/
theorem project_dirs_relative (env : Env) (cwd b : String) (hb : isAbsolute b = true) :
    configString env ["root"] = some "." ∧
    configString env ["publicDir"] = some "public" ∧
    configString env ["build", "outDir"] = some "dist" ∧
    configString env ["build", "assetsDir"] = some "assets" ∧
    (∀ x ∈ [".", "public", "dist", "assets"], isAbsolute x = false ∧ hasDotDot x = false) ∧
    pathSegments (posixResolve cwd [b, "."]) = pathSegments (posixResolve cwd [b]) ∧
    pathSegments (posixResolve cwd [b, "public"]) =
      pathSegments (posixResolve cwd [b]) ++ ["public"] ∧
    pathSegments (posixResolve cwd [b, "dist"]) =
      pathSegments (posixResolve cwd [b]) ++ ["dist"] ∧
    pathSegments (posixResolve cwd [b, "assets"]) =
      pathSegments (posixResolve cwd [b]) ++ ["assets"] := by
  have s0 : pathSegments (posixResolve cwd [b, "."]) = pathSegments (posixResolve cwd [b]) := by
    rw [pathSegments_resolve_under cwd b "." hb (by decide) (by decide),
      pathSegments_resolve_base cwd b hb]
    have e : splitSlash (".".data ++ ['/']) = [['.'], []] := by decide
    rw [e]
    simp [normalizeStep]
  have s1 := pathSegments_resolve_plain cwd b "public" [['p', 'u', 'b', 'l', 'i', 'c']] hb
    (by decide) (by decide) (by decide) (by decide)
  have s2 := pathSegments_resolve_plain cwd b "dist" [['d', 'i', 's', 't']] hb
    (by decide) (by decide) (by decide) (by decide)
  have s3 := pathSegments_resolve_plain cwd b "assets" [['a', 's', 's', 'e', 't', 's']] hb
    (by decide) (by decide) (by decide) (by decide)
  exact ⟨rfl, rfl, rfl, rfl, by decide, s0, s1, s2, s3⟩

/-- Witness for C5: the directories resolved against `/home/user/pdfpea`. -/
theorem project_dirs_relative_witness :
    isAbsolute "/home/user/pdfpea" = true ∧
    configString (posixEnv "/tmp" "/home/user/pdfpea") ["build", "outDir"] = some "dist" ∧
    pathSegments (posixResolve "/tmp" ["/home/user/pdfpea", "dist"]) =
      pathSegments (posixResolve "/tmp" ["/home/user/pdfpea"]) ++ ["dist"] ∧
    posixResolve "/tmp" ["/home/user/pdfpea", "dist"] = "/home/user/pdfpea/dist" :=
  ⟨by decide,
    (project_dirs_relative (posixEnv "/tmp" "/home/user/pdfpea") "/tmp" "/home/user/pdfpea"
      (by decide)).2.2.1,
    (project_dirs_relative (posixEnv "/tmp" "/home/user/pdfpea") "/tmp" "/home/user/pdfpea"
      (by decide)).2.2.2.2.2.2.2.1,
    by decide⟩

/-- C6: `build.sourcemap` is the boolean `true` and `build.minify` is the
string `terser`, not a boolean. -/
theorem build_sourcemap_and_minify (env : Env) :
    (exportedConfig env).path ["build", "sourcemap"] = Value.bool true ∧
    (exportedConfig env).path ["build", "minify"] = Value.str "terser" ∧
    (∀ b : Bool, (exportedConfig env).path ["build", "minify"] ≠ Value.bool b) := by
  have e : (exportedConfig env).path ["build", "minify"] = Value.str "terser" := rfl
  refine ⟨rfl, e, ?_⟩
  intro b h
  rw [e] at h
  cases h

/-- C7: the `server` section is exactly `port: 8000`, `open: true` and
`host: true`, with no other option. -/
theorem server_options (env : Env) :
    (exportedConfig env).path ["server"] =
      Value.obj [("port", Value.num 8000), ("open", Value.bool true),
        ("host", Value.bool true)] ∧
    ((exportedConfig env).path ["server"]).keys = ["port", "open", "host"] ∧
    (exportedConfig env).path ["server", "port"] = Value.num 8000 ∧
    (exportedConfig env).path ["server", "open"] = Value.bool true ∧
    (exportedConfig env).path ["server", "host"] = Value.bool true :=
  ⟨rfl, rfl, rfl, rfl, rfl⟩

/-- C8: the `plugins` list has exactly two elements, in this order: the result
of calling the default export of `@vitejs/plugin-vue` with no arguments, then
the result of calling the default export of `@tailwindcss/vite` with no
arguments. -/
theorem plugins_list (env : Env) :
    (exportedConfig env).path ["plugins"] =
      Value.arr [Value.external "@vitejs/plugin-vue" "default" [],
        Value.external "@tailwindcss/vite" "default" []] ∧
    ((exportedConfig env).path ["plugins"]).items.length = 2 ∧
    (lookupImport "vue").map (fun b => (b.module, b.exportName)) =
      some ("@vitejs/plugin-vue", "default") ∧
    (lookupImport "tailwindcss").map (fun b => (b.module, b.exportName)) =
      some ("@tailwindcss/vite", "default") :=
  ⟨rfl, rfl, rfl, rfl⟩

/-- C10, as amended: for every import specifier at most one of the alias keys
`@`, `@js` and `@css` matches, so the rewriting gives the same result whatever
the order of the alias entries; and with the POSIX `resolve`, for every
directory `d` whose alias target `resolve(d, 'src')` contains neither `$&` nor
a dollar sign followed by an apostrophe (read as the replacement template is
read), in particular for every absolute `d` without a dollar sign, and for
every sub-path `p`, `@js/p` is rewritten to the same path as `@/js/p` and
`@css/p` to the same path as `@/css/p`; for an absolute `d` without a dollar
sign that path is the target followed by `/p`. -/
theorem alias_resolution_unambiguous (env : Env) (cwd d s p : String) :
    (aliasEntries env).map Prod.fst = ["@", "@js", "@css"] ∧
    ((aliasEntries env).filter (fun e => aliasMatches e.1 s)).length ≤ 1 ∧
    (∀ es : List (String × String), es.Perm (aliasEntries env) →
      rewriteImport es s = rewriteImport (aliasEntries env) s) ∧
    (insertsMatchOrTail (posixResolve cwd [d, "src"]).data = false →
      rewriteImport (aliasEntries (posixEnv cwd d)) ("@js/" ++ p) =
        rewriteImport (aliasEntries (posixEnv cwd d)) ("@/js/" ++ p) ∧
      rewriteImport (aliasEntries (posixEnv cwd d)) ("@css/" ++ p) =
        rewriteImport (aliasEntries (posixEnv cwd d)) ("@/css/" ++ p)) ∧
    (isAbsolute d = true → '$' ∉ d.data →
      rewriteImport (aliasEntries (posixEnv cwd d)) ("@js/" ++ p) =
        rewriteImport (aliasEntries (posixEnv cwd d)) ("@/js/" ++ p) ∧
      rewriteImport (aliasEntries (posixEnv cwd d)) ("@js/" ++ p) =
        some (posixResolve cwd [d, "src/js"] ++ "/" ++ p) ∧
      rewriteImport (aliasEntries (posixEnv cwd d)) ("@css/" ++ p) =
        rewriteImport (aliasEntries (posixEnv cwd d)) ("@/css/" ++ p) ∧
      rewriteImport (aliasEntries (posixEnv cwd d)) ("@css/" ++ p) =
        some (posixResolve cwd [d, "src/css"] ++ "/" ++ p)) := by
  have cjs : posixResolve cwd [d, "src/js"] =
      posixResolve cwd [d, "src"] ++ String.mk ['/', 'j', 's'] :=
    posixResolve_child cwd d "src" "src/js" ['s', 'r', 'c'] ['j', 's'] (by decide) (by decide)
      (by decide) (by decide) (by decide) (by decide) (by decide) (by decide)
  have ccss : posixResolve cwd [d, "src/css"] =
      posixResolve cwd [d, "src"] ++ String.mk ['/', 'c', 's', 's'] :=
    posixResolve_child cwd d "src" "src/css" ['s', 'r', 'c'] ['c', 's', 's'] (by decide)
      (by decide) (by decide) (by decide) (by decide) (by decide) (by decide) (by decide)
  have ajs : "@/js/" ++ p = "@" ++ "/" ++ ("js/" ++ p) := by
    apply String.ext; simp [String.data_append]
  have acss : "@/css/" ++ p = "@" ++ "/" ++ ("css/" ++ p) := by
    apply String.ext; simp [String.data_append]
  have bjs : "@js/" ++ p = "@js" ++ "/" ++ p := by
    apply String.ext; simp [String.data_append]
  have bcss : "@css/" ++ p = "@css" ++ "/" ++ p := by
    apply String.ext; simp [String.data_append]
  have rjs := rewrite_js (posixEnv cwd d) p
  have rcss := rewrite_css (posixEnv cwd d) p
  have ratjs := rewrite_at (posixEnv cwd d) ("js/" ++ p)
  have ratcss := rewrite_at (posixEnv cwd d) ("css/" ++ p)
  rw [← bjs] at rjs
  rw [← bcss] at rcss
  rw [← ajs] at ratjs
  rw [← acss] at ratcss
  have tjs : (posixEnv cwd d).resolve [(posixEnv cwd d).dirname, "src/js"] =
      posixResolve cwd [d, "src"] ++ String.mk ['/', 'j', 's'] := cjs
  have tcss : (posixEnv cwd d).resolve [(posixEnv cwd d).dirname, "src/css"] =
      posixResolve cwd [d, "src"] ++ String.mk ['/', 'c', 's', 's'] := ccss
  have tsrc : (posixEnv cwd d).resolve [(posixEnv cwd d).dirname, "src"] =
      posixResolve cwd [d, "src"] := rfl
  rw [tjs] at rjs
  rw [tcss] at rcss
  rw [tsrc] at ratjs ratcss
  simp only [String.data_append] at rjs rcss ratjs ratcss
  rw [getSubstitution_append_slash] at rjs rcss
  have gjs : ∀ m a : List Char, getSubstitution m [] a ['/', 'j', 's'] = ['/', 'j', 's'] :=
    fun m a => getSubstitution_of_no_dollar m [] a _ (by decide)
  have gcss : ∀ m a : List Char,
      getSubstitution m [] a ['/', 'c', 's', 's'] = ['/', 'c', 's', 's'] :=
    fun m a => getSubstitution_of_no_dollar m [] a _ (by decide)
  rw [gjs] at rjs
  rw [gcss] at rcss
  have same : insertsMatchOrTail (posixResolve cwd [d, "src"]).data = false →
      rewriteImport (aliasEntries (posixEnv cwd d)) ("@js/" ++ p) =
        rewriteImport (aliasEntries (posixEnv cwd d)) ("@/js/" ++ p) ∧
      rewriteImport (aliasEntries (posixEnv cwd d)) ("@css/" ++ p) =
        rewriteImport (aliasEntries (posixEnv cwd d)) ("@/css/" ++ p) := by
    intro h
    constructor
    · rw [rjs, ratjs, getSubstitution_congr ['@', 'j', 's'] ['@'] [] ('/' :: p.data)
        ('/' :: ("js/" : String).data ++ p.data) _ h]
      congr 1
      apply String.ext
      simp
    · rw [rcss, ratcss, getSubstitution_congr ['@', 'c', 's', 's'] ['@'] [] ('/' :: p.data)
        ('/' :: ("css/" : String).data ++ p.data) _ h]
      congr 1
      apply String.ext
      simp
  refine ⟨rfl, alias_atMostOne env s, ?_, same, ?_⟩
  · intro es hes
    unfold rewriteImport
    rw [find?_perm_of_unique _ _ _ hes.symm (alias_unique env s)]
  · intro hd hdollar
    have hno : '$' ∉ (posixResolve cwd [d, "src"]).data := by
      intro hm
      rcases mem_posixResolve cwd d "src" '$' hd (by decide) (by decide) hm with e | e | e
      · exact absurd e (by decide)
      · exact hdollar e
      · exact absurd e (by decide)
    have hsame := same (insertsMatchOrTail_of_no_dollar _ hno)
    refine ⟨hsame.1, ?_, hsame.2, ?_⟩
    · rw [rjs, getSubstitution_of_no_dollar _ _ _ _ hno, cjs]
      congr 1
      apply String.ext
      simp [String.data_append]
    · rw [rcss, getSubstitution_of_no_dollar _ _ _ _ hno, ccss]
      congr 1
      apply String.ext
      simp [String.data_append]

/-- Witness for C10: the configuration in `/home/user/pdfpea`, the specifier
`@js/main.js`, and the alias entries in reverse order. -/
theorem alias_resolution_unambiguous_witness :
    rewriteImport
        [("@css", "/home/user/pdfpea/src/css"), ("@js", "/home/user/pdfpea/src/js"),
          ("@", "/home/user/pdfpea/src")] "@js/main.js" =
      rewriteImport (aliasEntries (posixEnv "/tmp" "/home/user/pdfpea")) "@js/main.js" ∧
    insertsMatchOrTail (posixResolve "/tmp" ["/home/user/pdfpea", "src"]).data = false ∧
    rewriteImport (aliasEntries (posixEnv "/tmp" "/home/user/pdfpea")) ("@js/" ++ "main.js") =
      rewriteImport (aliasEntries (posixEnv "/tmp" "/home/user/pdfpea")) ("@/js/" ++ "main.js") ∧
    rewriteImport (aliasEntries (posixEnv "/tmp" "/home/user/pdfpea")) ("@css/" ++ "main.js") =
      rewriteImport (aliasEntries (posixEnv "/tmp" "/home/user/pdfpea")) ("@/css/" ++ "main.js") ∧
    rewriteImport (aliasEntries (posixEnv "/tmp" "/home/user/pdfpea")) "@js/main.js" =
      some "/home/user/pdfpea/src/js/main.js" :=
  ⟨(alias_resolution_unambiguous (posixEnv "/tmp" "/home/user/pdfpea") "/tmp"
      "/home/user/pdfpea" "@js/main.js" "main.js").2.2.1 _ (by decide),
    by decide,
    ((alias_resolution_unambiguous (posixEnv "/tmp" "/home/user/pdfpea") "/tmp"
      "/home/user/pdfpea" "@js/main.js" "main.js").2.2.2.1 (by decide)).1,
    ((alias_resolution_unambiguous (posixEnv "/tmp" "/home/user/pdfpea") "/tmp"
      "/home/user/pdfpea" "@js/main.js" "main.js").2.2.2.1 (by decide)).2,
    by decide⟩

/-- Counterexample to C10 as stated: for the directory `/x/a$&b` the
replacement expands `$&` to the matched key, so `@js/p.js` and `@/js/p.js` are
rewritten to different paths; the same happens for `@css/p.js` and
`@/css/p.js`. -/
theorem alias_rewrite_differs_with_pattern :
    isAbsolute "/x/a$&b" = true ∧
    posixResolve "/tmp" ["/x/a$&b"] = "/x/a$&b" ∧
    rewriteImport (aliasEntries (posixEnv "/tmp" "/x/a$&b")) ("@js/" ++ "p.js") =
      some "/x/a@jsb/src/js/p.js" ∧
    rewriteImport (aliasEntries (posixEnv "/tmp" "/x/a$&b")) ("@/js/" ++ "p.js") =
      some "/x/a@b/src/js/p.js" ∧
    rewriteImport (aliasEntries (posixEnv "/tmp" "/x/a$&b")) ("@js/" ++ "p.js") ≠
      rewriteImport (aliasEntries (posixEnv "/tmp" "/x/a$&b")) ("@/js/" ++ "p.js") ∧
    rewriteImport (aliasEntries (posixEnv "/tmp" "/x/a$&b")) ("@css/" ++ "p.js") ≠
      rewriteImport (aliasEntries (posixEnv "/tmp" "/x/a$&b")) ("@/css/" ++ "p.js") := by
  decide

end ViteConfig
